import Mathlib

/-!
# Dynamic-shape abstract-tracing and lowering engine: a verification model

This file formalises the dynamic-shape subsystem of the Catalyst qjit
frontend: abstracted axes, symbolic shape expressions, abstract tracing of
function bodies (including nested qnode calls), and lowering to a typed
signature with explicit dynamic-dimension markers.

The repository snapshot ships only the test-suite for this subsystem
(`frontend/test/lit/test_jax_dynamic_api.py`,
`frontend/test/pytest/test_jax_scipy_functions.py`); the engine itself is
not part of the snapshot.  All engine definitions below are therefore
modelled from the specification, checked against the behaviour pinned by
the lit tests (FileCheck patterns over emitted jaxprs and MLIR types).
-/

namespace Catalyst

/-- Modelled from the spec: a DimensionVariable is the compile-time
placeholder for a symbolic dimension size; identity is a synthesized
identifier plus the declared symbolic name. -/
structure DimVar where
  id : Nat
  name : String
deriving DecidableEq, Repr

/-- Modelled from the spec: a ShapeExpression is a concrete non-negative
integer, a bare DimensionVariable reference, or an arithmetic combination
(sums and products of variables and constants). -/
inductive ShapeExpr where
  | const : Nat → ShapeExpr
  | var : DimVar → ShapeExpr
  | add : ShapeExpr → ShapeExpr → ShapeExpr
  | mul : ShapeExpr → ShapeExpr → ShapeExpr
deriving DecidableEq, Repr

/-- Element types appearing in the tests (i64, f64, c128). -/
inductive ElemType where
  | i64 | f64 | c128
deriving DecidableEq, Repr

/-- Modelled from the spec: an AbstractValue is an element type plus one
ShapeExpression per dimension (rank statically known).  A rank-0 traced
integer scalar additionally carries the ShapeExpression describing its
*value*, so the propagator can recognise it in shape-determining
positions (spec 4.2/4.3). -/
structure AbstractValue where
  elemType : ElemType
  shape : List ShapeExpr
  scalarVal : Option ShapeExpr
deriving DecidableEq, Repr

/-- The error taxonomy of the engine (spec section 7), plus the call-time
shape-compatibility failure raised by the runtime dispatcher. -/
inductive EngineError where
  | invalidAxisSpec
  | conflictingAxisBinding
  | unsupportedDynamicShapeOperation
  | unboundDimensionVariable
  | shapeCompatibility
deriving DecidableEq, Repr

/-- First-match association-list lookup (used for all engine tables). -/
def lookupAssoc {α β : Type} [DecidableEq α] (k : α) : List (α × β) → Option β
  | [] => none
  | (a, b) :: rest => if a = k then some b else lookupAssoc k rest

/-- Variables referenced by a ShapeExpression. -/
def ShapeExpr.vars : ShapeExpr → List DimVar
  | .const _ => []
  | .var v => [v]
  | .add a b => a.vars ++ b.vars
  | .mul a b => a.vars ++ b.vars

/-- Modelled from the spec: the Shape Expression Solver.  Given a binding
table (symbolic name to concrete integer), evaluates a ShapeExpression;
fails with `UnboundDimensionVariableError` on a missing binding. -/
def evalShapeExpr (b : List (String × Nat)) : ShapeExpr → Except EngineError Nat
  | .const n => .ok n
  | .var v =>
      match lookupAssoc v.name b with
      | some k => .ok k
      | none => .error .unboundDimensionVariable
  | .add e₁ e₂ =>
      match evalShapeExpr b e₁, evalShapeExpr b e₂ with
      | .ok n₁, .ok n₂ => .ok (n₁ + n₂)
      | .error e, _ => .error e
      | .ok _, .error e => .error e
  | .mul e₁ e₂ =>
      match evalShapeExpr b e₁, evalShapeExpr b e₂ with
      | .ok n₁, .ok n₂ => .ok (n₁ * n₂)
      | .error e, _ => .error e
      | .ok _, .error e => .error e

/-- The axis-environment table: (argument index, axis index) to the bound
DimensionVariable, in declaration order. -/
def AxisTable := List ((Nat × Nat) × DimVar)
deriving instance DecidableEq, Repr for AxisTable

/-- Bounds validation for one axis-specification entry: the argument
position exists and the axis index is within that argument's rank. -/
def boundsOk (ranks : List Nat) (e : (Nat × Nat) × String) : Bool :=
  match ranks[e.1.1]? with
  | some r => decide (e.1.2 < r)
  | none => false

/-- Modelled from the spec: the Axis Environment construction loop.
Processes axis-specification entries in order: a pair already bound must
carry the same name (else `ConflictingAxisBindingError`); a name seen
before reuses the same DimensionVariable; otherwise a fresh variable is
synthesized. -/
def buildAxisEnvAux :
    List ((Nat × Nat) × String) → List ((Nat × Nat) × DimVar) →
    List (String × DimVar) → Nat →
    Except EngineError (List ((Nat × Nat) × DimVar))
  | [], table, _, _ => .ok table
  | ((p, name) :: rest), table, names, fresh =>
      match lookupAssoc p table with
      | some v =>
          if v.name = name then buildAxisEnvAux rest table names fresh
          else .error .conflictingAxisBinding
      | none =>
          match lookupAssoc name names with
          | some v => buildAxisEnvAux rest (table ++ [(p, v)]) names fresh
          | none =>
              let v : DimVar := ⟨fresh, name⟩
              buildAxisEnvAux rest (table ++ [(p, v)]) (names ++ [(name, v)]) (fresh + 1)

/-- Modelled from the spec: given the arguments' ranks and the declared
axis specification, produce the validated AxisEnvironment table.  Bounds
violations raise `InvalidAxisSpecError`; conflicting re-declarations raise
`ConflictingAxisBindingError`. -/
def buildAxisEnv (ranks : List Nat) (axspec : List ((Nat × Nat) × String)) :
    Except EngineError (List ((Nat × Nat) × DimVar)) :=
  if axspec.all (boundsOk ranks) then buildAxisEnvAux axspec [] [] 0
  else .error .invalidAxisSpec

/-- Insert a variable at the back unless already present (first-occurrence
order, no duplicates). -/
def insertVar (acc : List DimVar) (v : DimVar) : List DimVar :=
  if v ∈ acc then acc else acc ++ [v]

/-- The distinct DimensionVariables of an axis table, in declaration
order. -/
def envVars (table : List ((Nat × Nat) × DimVar)) : List DimVar :=
  table.foldl (fun acc p => insertVar acc p.2) []

/-- A compile-request argument: its element type and its declared shape
(the concrete array shape, or the AOT shape template's per-dimension
sizes). -/
structure ArgSpec where
  elemType : ElemType
  shape : List Nat
deriving DecidableEq, Repr

/-- The synthesized DimensionVariable standing for the traced *value* of
the rank-0 integer argument at user-argument position `i` (spec 4.2: the
variable is associated with the scalar's value, not its shape). -/
def scalarArgVar (base : Nat) (i : Nat) : DimVar :=
  ⟨base + i, "%arg" ++ Nat.repr i⟩

/-- Modelled from the spec: the Abstract Value Builder for one argument.
Each axis is the bound DimensionVariable when declared symbolic, else the
concrete integer from the argument's own shape; a rank-0 i64 argument is
traced abstractly, carrying its value as a ShapeExpression. -/
def buildAval (table : List ((Nat × Nat) × DimVar)) (i : Nat) (a : ArgSpec) :
    AbstractValue :=
  { elemType := a.elemType
    shape := (List.range a.shape.length).map fun j =>
      match lookupAssoc (i, j) table with
      | some v => ShapeExpr.var v
      | none => ShapeExpr.const (a.shape.getD j 0)
    scalarVal :=
      if a.shape = [] ∧ a.elemType = ElemType.i64 then
        some (ShapeExpr.var (scalarArgVar table.length i))
      else none }

/-- Indexed map over a list, with explicit starting index. -/
def mapIdxFrom {α β : Type} (f : Nat → α → β) : Nat → List α → List β
  | _, [] => []
  | i, a :: rest => f i a :: mapIdxFrom f (i + 1) rest

/-- Modelled from the spec: Abstract Value Builder over all arguments. -/
def buildAbstractValues (table : List ((Nat × Nat) × DimVar))
    (args : List ArgSpec) : List AbstractValue :=
  mapIdxFrom (buildAval table) 0 args

/-- The implicit rank-0 i64 abstract value carrying dimension variable
`v` as its traced value. -/
def mkDimScalar (v : DimVar) : AbstractValue :=
  ⟨ElemType.i64, [], some (ShapeExpr.var v)⟩

/-- A rank-0 i64 abstract value whose traced value is the (possibly
computed) size expression `e`. -/
def mkSizeScalar (e : ShapeExpr) : AbstractValue :=
  ⟨ElemType.i64, [], some e⟩

/-- Variables referenced by a list of shape expressions. -/
def varsOfShapes : List ShapeExpr → List DimVar
  | [] => []
  | e :: rest => e.vars ++ varsOfShapes rest

/-- Variables referenced by an AbstractValue (its dimensions and, for a
traced scalar, its value expression). -/
def AbstractValue.dimVars (a : AbstractValue) : List DimVar :=
  varsOfShapes a.shape ++
    (match a.scalarVal with
     | some e => e.vars
     | none => [])

/-- Variables referenced by a list of AbstractValues. -/
def varsOfAvals : List AbstractValue → List DimVar
  | [] => []
  | a :: rest => a.dimVars ++ varsOfAvals rest

/-- A dimension expression is *computed* when it is neither a literal
constant nor a bare input variable; such a size is a traced intermediate
value and must be materialised as an explicit scalar result. -/
def isComputedDim : ShapeExpr → Bool
  | .const _ => false
  | .var _ => false
  | .add _ _ => true
  | .mul _ _ => true

/-- The size expressions made available by an output: a rank-0 scalar
output makes its own value expression available to later shape
positions. -/
def scalarExprsOf (a : AbstractValue) : List ShapeExpr :=
  match a.shape, a.scalarVal with
  | [], some e => [e]
  | _, _ => []

/-- The computed dimensions of one shape that still need a scalar output,
given the expressions already available. -/
def dimsNeedingScalars (seen : List ShapeExpr) : List ShapeExpr → List ShapeExpr
  | [] => []
  | e :: rest =>
      if isComputedDim e = true ∧ e ∉ seen then
        e :: dimsNeedingScalars (seen ++ [e]) rest
      else dimsNeedingScalars seen rest

/-- Output augmentation worker: walks the declared outputs left to right,
inserting, before each array output, one rank-0 i64 scalar output per
computed dimension not already available. -/
def augmentGo (seen : List ShapeExpr) : List AbstractValue → List AbstractValue
  | [] => []
  | o :: rest =>
      let need := dimsNeedingScalars seen o.shape
      need.map mkSizeScalar ++ o ::
        augmentGo (seen ++ need ++ scalarExprsOf o) rest

/-- Modelled from the spec and the lit tests: closing a traced function
pairs every computed dynamic result dimension with an explicit scalar
size output preceding the array (jaxpr outputs `(b, c)` with `c:f64[b]`
in `test_qjit_dynamic_result`); dimensions that are inputs (bare
variables) are recoverable from the arguments and are not re-returned
(`test_qnode_dynamic_arg` returns `(c,)` only). -/
def augmentOutputs (outs : List AbstractValue) : List AbstractValue :=
  augmentGo [] outs

/-- The function-body language covered by the dynamic-shape tests: return
selected arguments (identity / reordering pass-through), return
`jnp.ones((a + 1,), dtype=float)` over the traced scalar at a user
argument position, or return the results of a nested qnode call on
selected arguments. -/
inductive FnBody where
  | ret : List Nat → FnBody
  | retOnesAddOne : Nat → FnBody
  | retCall : FnBody → List Nat → FnBody
deriving DecidableEq, Repr

/-- A TraceGraph node: a primitive operation, or an opaque nested call
owning its inner TraceGraph (tree of graphs, no back-references). -/
inductive TraceNode where
  | op : String → List AbstractValue → List AbstractValue → TraceNode
  | call : List TraceNode → List AbstractValue → List AbstractValue → TraceNode

/-- Select abstract values by user-argument index. -/
def selectArgs (inputs : List AbstractValue) : List Nat →
    Except EngineError (List AbstractValue)
  | [] => .ok []
  | i :: rest =>
      match inputs[i]? with
      | some a =>
          match selectArgs inputs rest with
          | .ok l => .ok (a :: l)
          | .error e => .error e
      | none => .error .unsupportedDynamicShapeOperation

/-- Does some operand already carry dimension variable `v` as a rank-0
scalar value? -/
def scalarCarried (l : List AbstractValue) (v : DimVar) : Bool :=
  l.any fun a =>
    match a.shape, a.scalarVal with
    | [], some (.var w) => decide (w = v)
    | _, _ => false

/-- Deduplicate a variable list keeping first occurrences. -/
def dedupVars (l : List DimVar) : List DimVar :=
  l.foldl insertVar []

/-- The full operand list of a nested call: one implicit dimension scalar
per variable referenced by the user operands (unless an operand already
carries it), placed before the user operands — matching the jaxpr
`func[...] a b` of `test_qnode_dynamic_arg`. -/
def callOperands (callUser : List AbstractValue) : List AbstractValue :=
  ((dedupVars (varsOfAvals callUser)).filter
      (fun v => !(scalarCarried callUser v))).map mkDimScalar ++ callUser

/-- Modelled from the spec: the Trace Propagator.  Abstractly interprets
a function body over the user-argument AbstractValues, producing the
TraceGraph node list and the declared output AbstractValues.  A nested
call recursively traces the sub-program's body on the same AbstractValues
and takes the inner (augmented) outputs as its result values one-for-one;
a shape-computing op over an operand that is not a traced scalar raises
`UnsupportedDynamicShapeOperationError`. -/
def traceBody : FnBody → List AbstractValue →
    Except EngineError (List TraceNode × List AbstractValue)
  | .ret idxs, inputs =>
      match selectArgs inputs idxs with
      | .ok outs => .ok ([], outs)
      | .error e => .error e
  | .retOnesAddOne i, inputs =>
      match inputs[i]? with
      | none => .error .unsupportedDynamicShapeOperation
      | some av =>
          match av.shape, av.scalarVal with
          | [], some e =>
              let sizeExpr := ShapeExpr.add e (ShapeExpr.const 1)
              let sizeAv := mkSizeScalar sizeExpr
              let outAv : AbstractValue := ⟨ElemType.f64, [sizeExpr], none⟩
              .ok ([TraceNode.op "add" [av] [sizeAv],
                    TraceNode.op "broadcast_in_dim" [sizeAv] [outAv]],
                   [outAv])
          | _, _ => .error .unsupportedDynamicShapeOperation
  | .retCall sub idxs, inputs =>
      match selectArgs inputs idxs with
      | .error e => .error e
      | .ok callUser =>
          match traceBody sub callUser with
          | .error e => .error e
          | .ok (ig, iouts₀) =>
              let iouts := augmentOutputs iouts₀
              .ok ([TraceNode.call ig (callOperands callUser) iouts], iouts)

/-- Tracing a function: trace the body, then close the trace by pairing
computed dynamic result dimensions with explicit scalar size outputs. -/
def traceFunction (body : FnBody) (inputs : List AbstractValue) :
    Except EngineError (List TraceNode × List AbstractValue) :=
  match traceBody body inputs with
  | .ok (g, outs) => .ok (g, augmentOutputs outs)
  | .error e => .error e

/-- A lowered dimension descriptor: a literal size, or the explicit
"size unknown at compile time" marker (`?` in the emitted MLIR types). -/
inductive DimDescr where
  | concrete : Nat → DimDescr
  | dynamic
deriving DecidableEq, Repr

/-- A lowered type descriptor: element type plus one dimension descriptor
per axis (e.g. `tensor<?x3x?xf64>`). -/
structure TypeDescr where
  elemType : ElemType
  dims : List DimDescr
deriving DecidableEq, Repr

/-- Modelled from the spec: Dynamic-Signature Lowering of one dimension.
A ShapeExpression referencing no unbound DimensionVariable lowers to its
concrete integer; one referencing any unbound variable lowers to the
dynamic marker. -/
def lowerDim (e : ShapeExpr) : DimDescr :=
  match evalShapeExpr [] e with
  | .ok n => .concrete n
  | .error _ => .dynamic

/-- Lower an AbstractValue to its type descriptor. -/
def lowerAval (a : AbstractValue) : TypeDescr :=
  ⟨a.elemType, a.shape.map lowerDim⟩

/-- Modelled from the spec: the LoweredSignature — the lowered result
types (dynamic markers explicit) plus the DimensionVariable-name to
argument-shape-location binding table used by the runtime dispatcher. -/
structure LoweredSignature where
  resultTypes : List TypeDescr
  bindingTable : List (String × (Nat × Nat))
deriving DecidableEq, Repr

/-- A compile request: the ordered arguments (concrete shapes or AOT
templates), the declared axis specification, and the function body. -/
structure CompileRequest where
  args : List ArgSpec
  axspec : List ((Nat × Nat) × String)
  body : FnBody
deriving DecidableEq, Repr

/-- The compiled artifact: the TraceGraph, the traced parameter list
(implicit dimension scalars before the user arguments), the final traced
outputs, the lowered argument types and the LoweredSignature. -/
structure Compiled where
  graph : List TraceNode
  traceInputs : List AbstractValue
  traceOutputs : List AbstractValue
  argTypes : List TypeDescr
  lowered : LoweredSignature

/-- Modelled from the spec: the full compile pipeline — build the axis
environment, build abstract values, prepend one implicit scalar i64 input
per DimensionVariable, trace, close the trace, and lower. -/
def compile (r : CompileRequest) : Except EngineError Compiled :=
  match buildAxisEnv (r.args.map fun a => a.shape.length) r.axspec with
  | .error e => .error e
  | .ok table =>
      let userAvals := buildAbstractValues table r.args
      let dimScalars := (envVars table).map mkDimScalar
      match traceFunction r.body userAvals with
      | .error e => .error e
      | .ok (g, outs) =>
          .ok { graph := g
                traceInputs := dimScalars ++ userAvals
                traceOutputs := outs
                argTypes := (dimScalars ++ userAvals).map lowerAval
                lowered :=
                  { resultTypes := outs.map lowerAval
                    bindingTable := table.map fun p => (p.2.name, p.1) } }

/-- Read the concrete size of one (argument, axis) location from the
caller-supplied argument shapes. -/
def readDim (shapes : List (List Nat)) (p : Nat × Nat) : Option Nat :=
  match shapes[p.1]? with
  | some s => s[p.2]?
  | none => none

/-- Call-time binding resolution worker over the axis table, threading
the name-to-size bindings already established. -/
def resolveAux (shapes : List (List Nat)) :
    List ((Nat × Nat) × DimVar) → List (String × Nat) →
    Except EngineError (List (String × Nat))
  | [], b => .ok b
  | ((p, v) :: rest), b =>
      match readDim shapes p with
      | none => .error .shapeCompatibility
      | some k =>
          match lookupAssoc v.name b with
          | some k' =>
              if k = k' then resolveAux shapes rest b
              else .error .shapeCompatibility
          | none => resolveAux shapes rest (b ++ [(v.name, k)])

/-- Modelled from the spec: the runtime dispatcher's shape-recovery step.
Reads each DimensionVariable's concrete size out of the caller-supplied
argument shapes before the artifact executes; any inconsistency is a
shape-compatibility failure. -/
def resolveBindings (table : List ((Nat × Nat) × DimVar))
    (shapes : List (List Nat)) : Except EngineError (List (String × Nat)) :=
  resolveAux shapes table []

/-- The abstract value of an argument under fully-static compilation:
every dimension is its concrete integer and no value is traced
symbolically. -/
def staticAval (a : ArgSpec) : AbstractValue :=
  ⟨a.elemType, a.shape.map ShapeExpr.const, none⟩

/-- Modelled from the spec: a fully-static compilation of the same
function — no axis environment, every ShapeExpression a concrete integer,
no implicit dimension inputs, no dynamic markers (spec section 6: with no
axis specification the engine degenerates to the identity case). -/
def compileStatic (args : List ArgSpec) (body : FnBody) :
    Except EngineError Compiled :=
  let inputs := args.map staticAval
  match traceBody body inputs with
  | .error e => .error e
  | .ok (g, outs) =>
      .ok { graph := g
            traceInputs := inputs
            traceOutputs := outs
            argTypes := inputs.map lowerAval
            lowered := { resultTypes := outs.map lowerAval, bindingTable := [] } }

/-- Total evaluation of a variable-free ShapeExpression. -/
def evalClosed : ShapeExpr → Nat
  | .const n => n
  | .var _ => 0
  | .add a b => evalClosed a + evalClosed b
  | .mul a b => evalClosed a * evalClosed b

theorem eval_of_vars_nil (e : ShapeExpr) (hv : e.vars = []) (b : List (String × Nat)) :
    evalShapeExpr b e = .ok (evalClosed e) := by
  induction e with
  | const n => rfl
  | var v => simp [ShapeExpr.vars] at hv
  | add a c iha ihc =>
      rcases List.append_eq_nil.mp hv with ⟨ha, hc⟩
      simp [evalShapeExpr, iha ha, ihc hc, evalClosed]
  | mul a c iha ihc =>
      rcases List.append_eq_nil.mp hv with ⟨ha, hc⟩
      simp [evalShapeExpr, iha ha, ihc hc, evalClosed]

theorem eval_nil_error_of_vars_ne (e : ShapeExpr) (hv : e.vars ≠ []) :
    evalShapeExpr [] e = .error EngineError.unboundDimensionVariable := by
  induction e with
  | const n => simp [ShapeExpr.vars] at hv
  | var v => simp [evalShapeExpr, lookupAssoc]
  | add a c iha ihc =>
      by_cases ha : a.vars = []
      · have hc : c.vars ≠ [] := by
          intro h; exact hv (by simp [ShapeExpr.vars, ha, h])
        simp [evalShapeExpr, eval_of_vars_nil a ha, ihc hc]
      · simp [evalShapeExpr, iha ha]
  | mul a c iha ihc =>
      by_cases ha : a.vars = []
      · have hc : c.vars ≠ [] := by
          intro h; exact hv (by simp [ShapeExpr.vars, ha, h])
        simp [evalShapeExpr, eval_of_vars_nil a ha, ihc hc]
      · simp [evalShapeExpr, iha ha]

theorem lowerDim_dynamic_iff (e : ShapeExpr) :
    lowerDim e = DimDescr.dynamic ↔ e.vars ≠ [] := by
  by_cases hv : e.vars = []
  · simp [lowerDim, eval_of_vars_nil e hv, hv]
  · simp [lowerDim, eval_nil_error_of_vars_ne e hv, hv]

theorem lowerDim_concrete_of_eval (e : ShapeExpr) (n : Nat)
    (h : evalShapeExpr [] e = .ok n) : lowerDim e = DimDescr.concrete n := by
  simp [lowerDim, h]

/-- C1: For every compiled function with an abstracted axis, the lowered
artifact encodes each dimension whose ShapeExpression references an
unbound DimensionVariable at the top level as an explicit dynamic marker,
and every dimension with no such variable as its concrete integer; the
lowered types of a compiled artifact are exactly the dimension-wise
lowering of its traced values, and declaring axis 0 of a rank-1 i64
argument symbolic yields the lowered type `tensor<?xi64>`. -/
theorem c1_dynamic_marker_encoding :
    (∀ e : ShapeExpr, lowerDim e = DimDescr.dynamic ↔ e.vars ≠ []) ∧
    (∀ (e : ShapeExpr) (n : Nat), evalShapeExpr [] e = .ok n →
      lowerDim e = DimDescr.concrete n) ∧
    (∀ r c, compile r = .ok c →
      c.argTypes = c.traceInputs.map lowerAval ∧
      c.lowered.resultTypes = c.traceOutputs.map lowerAval) ∧
    (∃ c, compile ⟨[⟨ElemType.i64, [3]⟩], [((0, 0), "n")], .ret [0]⟩ = .ok c ∧
      c.lowered.resultTypes = [⟨ElemType.i64, [DimDescr.dynamic]⟩] ∧
      c.argTypes = [⟨ElemType.i64, []⟩, ⟨ElemType.i64, [DimDescr.dynamic]⟩]) := by
  refine ⟨lowerDim_dynamic_iff, lowerDim_concrete_of_eval, ?_, ⟨_, rfl, rfl, rfl⟩⟩
  intro r c h
  unfold compile at h
  split at h
  · simp at h
  · dsimp only at h
    split at h
    · simp at h
    · cases h
      exact ⟨rfl, rfl⟩

/-- C1 witness: the general parts applied at the concrete rank-1 request
of `test_qjit_dynamic_argument`. -/
theorem c1_dynamic_marker_encoding_witness :
    lowerDim (ShapeExpr.var ⟨0, "n"⟩) = DimDescr.dynamic ∧
    lowerDim (ShapeExpr.const 3) = DimDescr.concrete 3 := by
  refine ⟨(c1_dynamic_marker_encoding.1 (ShapeExpr.var ⟨0, "n"⟩)).mpr (by simp [ShapeExpr.vars]), ?_⟩
  exact c1_dynamic_marker_encoding.2.1 (ShapeExpr.const 3) 3 rfl

/-- C2: For a function returning an array of size `a + 1` over the traced
scalar operand `a`, the Trace Propagator constructs the ShapeExpression
`add(a, 1)` as the result's dimension rather than demanding a concrete
integer, and that ShapeExpression evaluates to `k + 1` under every
binding in which the operand evaluates to `k`. -/
theorem c2_shape_computing_add_one (et : ElemType) (e : ShapeExpr)
    (rest : List AbstractValue) (b : List (String × Nat)) (k : Nat) :
    (∃ g, traceBody (.retOnesAddOne 0) (⟨et, [], some e⟩ :: rest) =
      .ok (g, [⟨ElemType.f64, [ShapeExpr.add e (ShapeExpr.const 1)], none⟩])) ∧
    (evalShapeExpr b e = .ok k →
      evalShapeExpr b (ShapeExpr.add e (ShapeExpr.const 1)) = .ok (k + 1)) := by
  constructor
  · refine ⟨[TraceNode.op "add" [⟨et, [], some e⟩]
        [mkSizeScalar (ShapeExpr.add e (ShapeExpr.const 1))],
      TraceNode.op "broadcast_in_dim"
        [mkSizeScalar (ShapeExpr.add e (ShapeExpr.const 1))]
        [⟨ElemType.f64, [ShapeExpr.add e (ShapeExpr.const 1)], none⟩]], ?_⟩
    simp [traceBody, mkSizeScalar]
  · intro h
    simp [evalShapeExpr, h]

/-- C2 witness: the symbolic scalar `n` bound to 3 yields size 4. -/
theorem c2_shape_computing_add_one_witness :
    (∃ g, traceBody (.retOnesAddOne 0)
        [⟨ElemType.i64, [], some (ShapeExpr.var ⟨0, "n"⟩)⟩] =
      .ok (g, [⟨ElemType.f64,
        [ShapeExpr.add (ShapeExpr.var ⟨0, "n"⟩) (ShapeExpr.const 1)], none⟩])) ∧
    evalShapeExpr [("n", 3)]
      (ShapeExpr.add (ShapeExpr.var ⟨0, "n"⟩) (ShapeExpr.const 1)) = .ok 4 :=
  ⟨(c2_shape_computing_add_one ElemType.i64 (ShapeExpr.var ⟨0, "n"⟩) [] [("n", 3)] 3).1,
   (c2_shape_computing_add_one ElemType.i64 (ShapeExpr.var ⟨0, "n"⟩) [] [("n", 3)] 3).2 rfl⟩

/-- C4: Ahead-of-time compilation from an explicit rank-3 shape template
with the first and third dimensions declared symbolic (axes 0 ↦ "n",
2 ↦ "m" on a `[d₁, d₂, d₃]` f64 template) produces a LoweredSignature
with exactly those two dimensions dynamic and the middle dimension
concrete (`tensor<?x3x?xf64>` for template `[1, 3, 1]`), without any
concrete call arguments being supplied. -/
theorem c4_aot_two_dynamic_dims (d₁ d₂ d₃ : Nat) :
    ∃ c, compile ⟨[⟨ElemType.f64, [d₁, d₂, d₃]⟩],
        [((0, 0), "n"), ((0, 2), "m")], .ret [0]⟩ = .ok c ∧
      c.argTypes = [⟨ElemType.i64, []⟩, ⟨ElemType.i64, []⟩,
        ⟨ElemType.f64, [DimDescr.dynamic, DimDescr.concrete d₂, DimDescr.dynamic]⟩] ∧
      c.lowered.resultTypes =
        [⟨ElemType.f64, [DimDescr.dynamic, DimDescr.concrete d₂, DimDescr.dynamic]⟩] ∧
      c.lowered.bindingTable = [("n", (0, 0)), ("m", (0, 2))] :=
  ⟨_, rfl, rfl, rfl, rfl⟩

theorem selectArgs_mem (inputs : List AbstractValue) :
    ∀ (idxs : List Nat) (l : List AbstractValue),
      selectArgs inputs idxs = .ok l → ∀ a ∈ l, a ∈ inputs := by
  intro idxs
  induction idxs with
  | nil =>
      intro l h a ha
      simp only [selectArgs] at h
      cases h
      simp at ha
  | cons i rest ih =>
      intro l h a ha
      simp only [selectArgs] at h
      cases hg : inputs[i]? with
      | none => rw [hg] at h; simp at h
      | some b =>
          rw [hg] at h
          cases hr : selectArgs inputs rest with
          | error e => rw [hr] at h; simp at h
          | ok l' =>
              rw [hr] at h
              cases h
              rcases List.mem_cons.mp ha with h' | h'
              · exact h' ▸ List.getElem?_mem hg
              · exact ih l' hr a h'

theorem varsOfShapes_append (l₁ l₂ : List ShapeExpr) :
    varsOfShapes (l₁ ++ l₂) = varsOfShapes l₁ ++ varsOfShapes l₂ := by
  induction l₁ with
  | nil => simp [varsOfShapes]
  | cons e rest ih => simp [varsOfShapes, ih]

theorem vars_subset_varsOfShapes {e : ShapeExpr} {l : List ShapeExpr}
    (h : e ∈ l) : e.vars ⊆ varsOfShapes l := by
  induction l with
  | nil => simp at h
  | cons x rest ih =>
      rcases List.mem_cons.mp h with h' | h'
      · subst h'
        intro v hv
        simp [varsOfShapes, List.mem_append, hv]
      · intro v hv
        simp [varsOfShapes, List.mem_append]
        exact Or.inr (ih h' hv)

theorem varsOfAvals_append (l₁ l₂ : List AbstractValue) :
    varsOfAvals (l₁ ++ l₂) = varsOfAvals l₁ ++ varsOfAvals l₂ := by
  induction l₁ with
  | nil => simp [varsOfAvals]
  | cons a rest ih => simp [varsOfAvals, ih]

theorem dimVars_subset_varsOfAvals {a : AbstractValue} {l : List AbstractValue}
    (h : a ∈ l) : a.dimVars ⊆ varsOfAvals l := by
  induction l with
  | nil => simp at h
  | cons x rest ih =>
      rcases List.mem_cons.mp h with h' | h'
      · subst h'
        intro v hv
        simp [varsOfAvals, List.mem_append, hv]
      · intro v hv
        simp [varsOfAvals, List.mem_append]
        exact Or.inr (ih h' hv)

theorem varsOfAvals_subset_of_mem {l₁ l₂ : List AbstractValue}
    (h : ∀ a ∈ l₁, a ∈ l₂) : varsOfAvals l₁ ⊆ varsOfAvals l₂ := by
  induction l₁ with
  | nil => intro v hv; simp [varsOfAvals] at hv
  | cons a rest ih =>
      intro v hv
      simp only [varsOfAvals, List.mem_append] at hv
      rcases hv with hv | hv
      · exact dimVars_subset_varsOfAvals (h a (by simp)) hv
      · exact ih (fun x hx => h x (by simp [hx])) hv

theorem dimsNeedingScalars_subset (shape : List ShapeExpr) :
    ∀ seen : List ShapeExpr, dimsNeedingScalars seen shape ⊆ shape := by
  induction shape with
  | nil => intro seen; simp [dimsNeedingScalars]
  | cons e rest ih =>
      intro seen
      simp only [dimsNeedingScalars]
      split
      · intro x hx
        rcases List.mem_cons.mp hx with h' | h'
        · simp [h']
        · exact List.mem_cons_of_mem _ (ih (seen ++ [e]) h')
      · intro x hx
        exact List.mem_cons_of_mem _ (ih seen hx)

theorem mkSizeScalar_dimVars (e : ShapeExpr) :
    (mkSizeScalar e).dimVars = e.vars := by
  simp [mkSizeScalar, AbstractValue.dimVars, varsOfShapes]

theorem varsOfAvals_mkSizeScalars {need : List ShapeExpr} {shape : List ShapeExpr}
    (hsub : need ⊆ shape) :
    varsOfAvals (need.map mkSizeScalar) ⊆ varsOfShapes shape := by
  induction need with
  | nil => intro v hv; simp [varsOfAvals] at hv
  | cons e rest ih =>
      intro v hv
      simp only [List.map_cons, varsOfAvals, mkSizeScalar_dimVars, List.mem_append] at hv
      rcases hv with hv | hv
      · exact vars_subset_varsOfShapes (hsub (by simp)) hv
      · exact ih (fun x hx => hsub (by simp [hx])) hv

theorem augmentGo_vars_subset :
    ∀ (l : List AbstractValue) (seen : List ShapeExpr),
      varsOfAvals (augmentGo seen l) ⊆ varsOfAvals l := by
  intro l
  induction l with
  | nil => intro seen; simp [augmentGo, varsOfAvals]
  | cons o rest ih =>
      intro seen v hv
      simp only [augmentGo, varsOfAvals_append, List.mem_append] at hv
      simp only [varsOfAvals, List.mem_append]
      rcases hv with hv | hv
      · exact Or.inl (by
          have := varsOfAvals_mkSizeScalars
            (dimsNeedingScalars_subset o.shape seen) hv
          exact List.mem_append.mpr (Or.inl this))
      · simp only [varsOfAvals, List.mem_append] at hv
        rcases hv with hv | hv
        · exact Or.inl hv
        · exact Or.inr (ih _ hv)

theorem augmentOutputs_vars_subset (l : List AbstractValue) :
    varsOfAvals (augmentOutputs l) ⊆ varsOfAvals l :=
  augmentGo_vars_subset l []

theorem traceBody_vars_subset :
    ∀ (body : FnBody) (inputs : List AbstractValue)
      (g : List TraceNode) (outs : List AbstractValue),
      traceBody body inputs = .ok (g, outs) →
      varsOfAvals outs ⊆ varsOfAvals inputs := by
  intro body
  induction body with
  | ret idxs =>
      intro inputs g outs h
      simp only [traceBody] at h
      split at h
      · rename_i l hs
        cases h
        exact varsOfAvals_subset_of_mem (selectArgs_mem inputs idxs _ hs)
      · simp at h
  | retOnesAddOne i =>
      intro inputs g outs h
      simp only [traceBody] at h
      split at h
      · simp at h
      · rename_i av hg
        split at h
        · rename_i e hshape hval
          cases h
          intro v hv
          simp only [varsOfAvals, AbstractValue.dimVars, varsOfShapes,
            ShapeExpr.vars, List.append_nil, List.mem_append] at hv
          have hmem : av ∈ inputs := List.getElem?_mem hg
          have hval' : v ∈ av.dimVars := by
            simp only [AbstractValue.dimVars, hshape, hval, varsOfShapes,
              List.nil_append]
            exact hv
          exact dimVars_subset_varsOfAvals hmem hval'
        · simp at h
  | retCall sub idxs ihsub =>
      intro inputs g outs h
      simp only [traceBody] at h
      split at h
      · simp at h
      · rename_i callUser hs
        split at h
        · simp at h
        · rename_i ig iouts₀ ht
          cases h
          intro v hv
          have h₁ := augmentOutputs_vars_subset iouts₀ hv
          have h₂ := ihsub callUser ig iouts₀ ht h₁
          exact varsOfAvals_subset_of_mem
            (selectArgs_mem inputs idxs callUser hs) h₂

/-- C3: For every nested sub-program (qnode) call receiving
symbolically-shaped AbstractValue inputs, the propagator recursively
abstract-traces the sub-program with those same AbstractValues, the
resulting call node takes the inner trace's inferred output
AbstractValues as its result AbstractValues one-for-one, and the inner
outputs reference only DimensionVariables of the outer inputs — the very
same variables, no renaming. -/
theorem c3_nested_call_propagation (sub : FnBody) (idxs : List Nat)
    (inputs callUser : List AbstractValue) (ig : List TraceNode)
    (iouts : List AbstractValue)
    (hsel : selectArgs inputs idxs = .ok callUser)
    (hin : traceFunction sub callUser = .ok (ig, iouts)) :
    traceBody (.retCall sub idxs) inputs =
      .ok ([TraceNode.call ig (callOperands callUser) iouts], iouts) ∧
    varsOfAvals iouts ⊆ varsOfAvals callUser := by
  unfold traceFunction at hin
  split at hin
  · rename_i g₀ outs₀ ht
    simp only [Except.ok.injEq, Prod.mk.injEq] at hin
    obtain ⟨hg, ho⟩ := hin
    subst hg
    subst ho
    refine ⟨?_, ?_⟩
    · simp [traceBody, hsel, ht]
    · exact fun v hv => traceBody_vars_subset sub callUser g₀ outs₀ ht
        (augmentOutputs_vars_subset outs₀ hv)
  · simp at hin

/-- C3 witness: the identity qnode of `test_qnode_dynamic_arg` applied to
a rank-1 tensor with symbolic leading dimension `n`. -/
theorem c3_nested_call_propagation_witness :
    traceBody (.retCall (.ret [0]) [0])
        [⟨ElemType.i64, [ShapeExpr.var ⟨0, "n"⟩], none⟩] =
      .ok ([TraceNode.call []
              (callOperands [⟨ElemType.i64, [ShapeExpr.var ⟨0, "n"⟩], none⟩])
              [⟨ElemType.i64, [ShapeExpr.var ⟨0, "n"⟩], none⟩]],
           [⟨ElemType.i64, [ShapeExpr.var ⟨0, "n"⟩], none⟩]) ∧
    varsOfAvals [⟨ElemType.i64, [ShapeExpr.var ⟨0, "n"⟩], none⟩] ⊆
      varsOfAvals [⟨ElemType.i64, [ShapeExpr.var ⟨0, "n"⟩], none⟩] :=
  c3_nested_call_propagation (.ret [0]) [0]
    [⟨ElemType.i64, [ShapeExpr.var ⟨0, "n"⟩], none⟩]
    [⟨ElemType.i64, [ShapeExpr.var ⟨0, "n"⟩], none⟩] []
    [⟨ElemType.i64, [ShapeExpr.var ⟨0, "n"⟩], none⟩] rfl rfl

/-- C7: Tracing and lowering are a pure function of the compile request
(function body, ordered abstract inputs, axis specification): running the
build twice on the same request yields structurally identical TraceGraphs
and LoweredSignatures — there is no hidden state. -/
theorem c7_deterministic_build (r₁ r₂ : CompileRequest) (h : r₁ = r₂) :
    compile r₁ = compile r₂ ∧
    ∀ inputs, traceFunction r₁.body inputs = traceFunction r₂.body inputs := by
  subst h
  exact ⟨rfl, fun _ => rfl⟩

/-- C7 witness: two builds of the dynamic-argument request coincide. -/
theorem c7_deterministic_build_witness :
    compile ⟨[⟨ElemType.i64, [3]⟩], [((0, 0), "n")], .ret [0]⟩ =
      compile ⟨[⟨ElemType.i64, [3]⟩], [((0, 0), "n")], .ret [0]⟩ ∧
    ∀ inputs, traceFunction (FnBody.ret [0]) inputs =
      traceFunction (FnBody.ret [0]) inputs :=
  c7_deterministic_build
    ⟨[⟨ElemType.i64, [3]⟩], [((0, 0), "n")], .ret [0]⟩
    ⟨[⟨ElemType.i64, [3]⟩], [((0, 0), "n")], .ret [0]⟩ rfl

theorem lookupAssoc_append {α β : Type} [DecidableEq α] (k : α)
    (l₁ l₂ : List (α × β)) :
    lookupAssoc k (l₁ ++ l₂) =
      match lookupAssoc k l₁ with
      | some v => some v
      | none => lookupAssoc k l₂ := by
  induction l₁ with
  | nil => simp [lookupAssoc]
  | cons x rest ih =>
      by_cases hx : x.1 = k
      · simp [lookupAssoc, hx]
      · simpa [lookupAssoc, hx] using ih

theorem lookupAssoc_append_left {α β : Type} [DecidableEq α] {k : α}
    {l₁ : List (α × β)} {v : β} (h : lookupAssoc k l₁ = some v)
    (l₂ : List (α × β)) : lookupAssoc k (l₁ ++ l₂) = some v := by
  rw [lookupAssoc_append, h]

theorem lookupAssoc_append_right {α β : Type} [DecidableEq α] {k : α}
    {l₁ : List (α × β)} (h : lookupAssoc k l₁ = none)
    (l₂ : List (α × β)) : lookupAssoc k (l₁ ++ l₂) = lookupAssoc k l₂ := by
  rw [lookupAssoc_append, h]

theorem buildAxisEnvAux_error :
    ∀ (spec : List ((Nat × Nat) × String)) (table : List ((Nat × Nat) × DimVar))
      (names : List (String × DimVar)) (fresh : Nat) (e : EngineError),
      buildAxisEnvAux spec table names fresh = .error e →
      e = .conflictingAxisBinding := by
  intro spec
  induction spec with
  | nil => intro table names fresh e h; simp [buildAxisEnvAux] at h
  | cons entry rest ih =>
      intro table names fresh e h
      obtain ⟨p, name⟩ := entry
      simp only [buildAxisEnvAux] at h
      split at h
      · split at h
        · exact ih _ _ _ _ h
        · simp only [Except.error.injEq] at h
          exact h.symm
      · split at h
        · exact ih _ _ _ _ h
        · exact ih _ _ _ _ h

theorem buildAxisEnvAux_extends :
    ∀ (spec : List ((Nat × Nat) × String)) (table : List ((Nat × Nat) × DimVar))
      (names : List (String × DimVar)) (fresh : Nat)
      (out : List ((Nat × Nat) × DimVar)),
      buildAxisEnvAux spec table names fresh = .ok out →
      ∃ suffix, out = table ++ suffix := by
  intro spec
  induction spec with
  | nil =>
      intro table names fresh out h
      simp only [buildAxisEnvAux, Except.ok.injEq] at h
      exact ⟨[], by simp [h]⟩
  | cons entry rest ih =>
      intro table names fresh out h
      obtain ⟨p, name⟩ := entry
      simp only [buildAxisEnvAux] at h
      split at h
      · split at h
        · exact ih _ _ _ _ h
        · simp at h
      · split at h
        · rename_i v hvn
          obtain ⟨s, hs⟩ := ih _ _ _ _ h
          exact ⟨(p, v) :: s, by simp [hs]⟩
        · obtain ⟨s, hs⟩ := ih _ _ _ _ h
          exact ⟨(p, ⟨fresh, name⟩) :: s, by simp [hs]⟩

theorem buildAxisEnvAux_names :
    ∀ (spec : List ((Nat × Nat) × String)) (table : List ((Nat × Nat) × DimVar))
      (names : List (String × DimVar)) (fresh : Nat)
      (out : List ((Nat × Nat) × DimVar)),
      (∀ n v, lookupAssoc n names = some v → v.name = n) →
      buildAxisEnvAux spec table names fresh = .ok out →
      ∀ p n, (p, n) ∈ spec → ∃ v, lookupAssoc p out = some v ∧ v.name = n := by
  intro spec
  induction spec with
  | nil => intro table names fresh out _ _ p n hmem; simp at hmem
  | cons entry rest ih =>
      intro table names fresh out hnames h p n hmem
      obtain ⟨p₀, n₀⟩ := entry
      simp only [buildAxisEnvAux] at h
      split at h
      · rename_i v hv
        split at h
        · rename_i hname
          rcases List.mem_cons.mp hmem with hhead | htail
          · simp only [Prod.mk.injEq] at hhead
            obtain ⟨hp, hn⟩ := hhead
            subst hp
            subst hn
            obtain ⟨s, hs⟩ := buildAxisEnvAux_extends rest table names fresh out h
            subst hs
            exact ⟨v, lookupAssoc_append_left hv s, hname⟩
          · exact ih _ _ _ _ hnames h p n htail
        · simp at h
      · rename_i hv
        split at h
        · rename_i v hvn
          rcases List.mem_cons.mp hmem with hhead | htail
          · simp only [Prod.mk.injEq] at hhead
            obtain ⟨hp, hn⟩ := hhead
            subst hp
            subst hn
            obtain ⟨s, hs⟩ := buildAxisEnvAux_extends rest _ names fresh out h
            subst hs
            refine ⟨v, ?_, hnames n v hvn⟩
            rw [List.append_assoc]
            rw [lookupAssoc_append_right hv]
            simp [lookupAssoc]
          · exact ih _ _ _ _ hnames h p n htail
        · rename_i hvn
          rcases List.mem_cons.mp hmem with hhead | htail
          · simp only [Prod.mk.injEq] at hhead
            obtain ⟨hp, hn⟩ := hhead
            subst hp
            subst hn
            obtain ⟨s, hs⟩ := buildAxisEnvAux_extends rest _ _ (fresh + 1) out h
            subst hs
            refine ⟨⟨fresh, n⟩, ?_, rfl⟩
            rw [List.append_assoc]
            rw [lookupAssoc_append_right hv]
            simp [lookupAssoc]
          · refine ih _ _ _ _ ?_ h p n htail
            intro m w hw
            rw [lookupAssoc_append] at hw
            split at hw
            · rename_i w' hw'
              cases hw
              exact hnames m w hw'
            · simp only [lookupAssoc] at hw
              split at hw
              · cases hw
                rename_i heq
                simp_all
              · simp at hw

theorem compile_error_of_env (r : CompileRequest) (e : EngineError)
    (h : buildAxisEnv (r.args.map fun a => a.shape.length) r.axspec = .error e) :
    compile r = .error e := by
  unfold compile
  rw [h]

/-- C8: Declaring an axis index out of range of the corresponding
argument's declared rank raises `InvalidAxisSpecError`, and declaring the
same (argument, axis) pair more than once with different names raises
`ConflictingAxisBindingError`; in both cases compilation aborts with the
error — no TraceGraph and no partial artifact is produced. -/
theorem c8_axis_spec_errors :
    (∀ (r : CompileRequest) (p : Nat × Nat) (name : String),
      (p, name) ∈ r.axspec →
      boundsOk (r.args.map fun a => a.shape.length) (p, name) = false →
      compile r = .error .invalidAxisSpec) ∧
    (∀ (r : CompileRequest) (p : Nat × Nat) (n₁ n₂ : String),
      (∀ x ∈ r.axspec, boundsOk (r.args.map fun a => a.shape.length) x = true) →
      (p, n₁) ∈ r.axspec → (p, n₂) ∈ r.axspec → n₁ ≠ n₂ →
      compile r = .error .conflictingAxisBinding) := by
  constructor
  · intro r p name hmem hfalse
    apply compile_error_of_env
    unfold buildAxisEnv
    have hnall : ¬ (r.axspec.all
        (boundsOk (r.args.map fun a => a.shape.length)) = true) := by
      intro hall
      have := List.all_eq_true.mp hall _ hmem
      rw [hfalse] at this
      exact Bool.false_ne_true this
    simp [hnall]
  · intro r p n₁ n₂ hall hm₁ hm₂ hne
    apply compile_error_of_env
    unfold buildAxisEnv
    rw [if_pos (List.all_eq_true.mpr hall)]
    cases hb : buildAxisEnvAux r.axspec [] [] 0 with
    | ok out =>
        exfalso
        obtain ⟨v₁, hl₁, hname₁⟩ := buildAxisEnvAux_names r.axspec [] [] 0 out
          (by intro n v hv; simp [lookupAssoc] at hv) hb p n₁ hm₁
        obtain ⟨v₂, hl₂, hname₂⟩ := buildAxisEnvAux_names r.axspec [] [] 0 out
          (by intro n v hv; simp [lookupAssoc] at hv) hb p n₂ hm₂
        rw [hl₁] at hl₂
        cases hl₂
        exact hne (hname₁.symm.trans hname₂)
    | error e =>
        rw [buildAxisEnvAux_error r.axspec [] [] 0 e hb]

/-- C8 witness: axis index 5 on a rank-2 argument, and the same
(argument, axis) pair declared under two different names. -/
theorem c8_axis_spec_errors_witness :
    compile ⟨[⟨ElemType.f64, [2, 2]⟩], [((0, 5), "n")], .ret [0]⟩ =
      .error .invalidAxisSpec ∧
    compile ⟨[⟨ElemType.f64, [2, 2]⟩], [((0, 0), "n"), ((0, 0), "m")], .ret [0]⟩ =
      .error .conflictingAxisBinding :=
  ⟨c8_axis_spec_errors.1 ⟨[⟨ElemType.f64, [2, 2]⟩], [((0, 5), "n")], .ret [0]⟩
      (0, 5) "n" (by simp) rfl,
   c8_axis_spec_errors.2 ⟨[⟨ElemType.f64, [2, 2]⟩],
      [((0, 0), "n"), ((0, 0), "m")], .ret [0]⟩
      (0, 0) "n" "m" (by decide) (by simp) (by simp) (by decide)⟩

theorem buildAxisEnvAux_names_consistent :
    ∀ (spec : List ((Nat × Nat) × String)) (table : List ((Nat × Nat) × DimVar))
      (names : List (String × DimVar)) (fresh : Nat)
      (out : List ((Nat × Nat) × DimVar)),
      (∀ n v, lookupAssoc n names = some v → v.name = n) →
      (∀ p v, lookupAssoc p table = some v → lookupAssoc v.name names = some v) →
      buildAxisEnvAux spec table names fresh = .ok out →
      ∃ names', ∀ p v, lookupAssoc p out = some v →
        lookupAssoc v.name names' = some v := by
  intro spec
  induction spec with
  | nil =>
      intro table names fresh out _ hnc h
      simp only [buildAxisEnvAux, Except.ok.injEq] at h
      subst h
      exact ⟨names, hnc⟩
  | cons entry rest ih =>
      intro table names fresh out hnn hnc h
      obtain ⟨p₀, n₀⟩ := entry
      simp only [buildAxisEnvAux] at h
      split at h
      · split at h
        · exact ih _ _ _ _ hnn hnc h
        · simp at h
      · rename_i hv
        split at h
        · rename_i v hvn
          refine ih _ _ _ _ hnn ?_ h
          intro p w hw
          rw [lookupAssoc_append] at hw
          split at hw
          · rename_i w' hw'
            cases hw
            exact hnc p w hw'
          · simp only [lookupAssoc] at hw
            split at hw
            · cases hw
              have hn : v.name = n₀ := hnn n₀ v hvn
              rw [hn]
              exact hvn
            · simp at hw
        · rename_i hvn
          refine ih _ _ _ _ ?_ ?_ h
          · intro n w hw
            rw [lookupAssoc_append] at hw
            split at hw
            · rename_i w' hw'
              cases hw
              exact hnn n w hw'
            · simp only [lookupAssoc] at hw
              split at hw
              · cases hw
                rename_i heq
                simp_all
              · simp at hw
          · intro p w hw
            rw [lookupAssoc_append] at hw
            split at hw
            · rename_i w' hw'
              cases hw
              exact lookupAssoc_append_left (hnc p w hw') _
            · simp only [lookupAssoc] at hw
              split at hw
              · cases hw
                show lookupAssoc n₀ (names ++ [(n₀, ⟨fresh, n₀⟩)]) = _
                rw [lookupAssoc_append_right hvn]
                simp [lookupAssoc]
              · simp at hw

theorem resolveAux_binding_stable (shapes : List (List Nat)) :
    ∀ (table : List ((Nat × Nat) × DimVar)) (b b' : List (String × Nat))
      (n : String) (k : Nat),
      lookupAssoc n b = some k → resolveAux shapes table b = .ok b' →
      lookupAssoc n b' = some k := by
  intro table
  induction table with
  | nil =>
      intro b b' n k hl h
      simp only [resolveAux, Except.ok.injEq] at h
      subst h
      exact hl
  | cons entry rest ih =>
      intro b b' n k hl h
      obtain ⟨p, v⟩ := entry
      simp only [resolveAux] at h
      split at h
      · simp at h
      · split at h
        · split at h
          · exact ih _ _ _ _ hl h
          · simp at h
        · exact ih _ _ _ _ (lookupAssoc_append_left hl _) h

theorem resolveAux_reads (shapes : List (List Nat)) :
    ∀ (table : List ((Nat × Nat) × DimVar)) (b b' : List (String × Nat)),
      resolveAux shapes table b = .ok b' →
      ∀ p v, (p, v) ∈ table →
        ∃ k, readDim shapes p = some k ∧ lookupAssoc v.name b' = some k := by
  intro table
  induction table with
  | nil => intro b b' _ p v hmem; simp at hmem
  | cons entry rest ih =>
      intro b b' h p v hmem
      obtain ⟨p₀, v₀⟩ := entry
      simp only [resolveAux] at h
      split at h
      · simp at h
      · rename_i k₀ hread
        split at h
        · rename_i k' hlk
          split at h
          · rename_i hkk
            rcases List.mem_cons.mp hmem with hhead | htail
            · simp only [Prod.mk.injEq] at hhead
              obtain ⟨hp, hvv⟩ := hhead
              subst hp
              subst hvv
              exact ⟨k₀, hread,
                hkk ▸ resolveAux_binding_stable shapes rest b b' v.name k' hlk h⟩
            · exact ih _ _ h p v htail
          · simp at h
        · rename_i hlk
          rcases List.mem_cons.mp hmem with hhead | htail
          · simp only [Prod.mk.injEq] at hhead
            obtain ⟨hp, hvv⟩ := hhead
            subst hp
            subst hvv
            refine ⟨k₀, hread, ?_⟩
            refine resolveAux_binding_stable shapes rest _ b' v.name k₀ ?_ h
            rw [lookupAssoc_append_right hlk]
            simp [lookupAssoc]
          · exact ih _ _ h p v htail

theorem resolveAux_error_shape (shapes : List (List Nat)) :
    ∀ (table : List ((Nat × Nat) × DimVar)) (b : List (String × Nat))
      (e : EngineError),
      resolveAux shapes table b = .error e → e = .shapeCompatibility := by
  intro table
  induction table with
  | nil => intro b e h; simp [resolveAux] at h
  | cons entry rest ih =>
      intro b e h
      obtain ⟨p, v⟩ := entry
      simp only [resolveAux] at h
      split at h
      · simp only [Except.error.injEq] at h
        exact h.symm
      · split at h
        · split at h
          · exact ih _ _ h
          · simp only [Except.error.injEq] at h
            exact h.symm
        · exact ih _ _ h

/-- C6: Declaring the same symbolic name on two different arguments'
axis positions binds both to one single shared DimensionVariable, and
supplying concrete call arguments whose sizes disagree on a shared
variable is detected as a shape-compatibility failure by the binding
resolution that runs before execution. -/
theorem c6_shared_name_single_variable :
    (∀ (ranks : List Nat) (axspec : List ((Nat × Nat) × String))
       (out : List ((Nat × Nat) × DimVar)) (p₁ p₂ : Nat × Nat) (v₁ v₂ : DimVar),
      buildAxisEnv ranks axspec = .ok out →
      lookupAssoc p₁ out = some v₁ → lookupAssoc p₂ out = some v₂ →
      v₁.name = v₂.name → v₁ = v₂) ∧
    (∀ (table : List ((Nat × Nat) × DimVar)) (shapes : List (List Nat))
       (p₁ p₂ : Nat × Nat) (v₁ v₂ : DimVar) (k₁ k₂ : Nat),
      (p₁, v₁) ∈ table → (p₂, v₂) ∈ table → v₁.name = v₂.name →
      readDim shapes p₁ = some k₁ → readDim shapes p₂ = some k₂ → k₁ ≠ k₂ →
      resolveBindings table shapes = .error .shapeCompatibility) := by
  constructor
  · intro ranks axspec out p₁ p₂ v₁ v₂ h hl₁ hl₂ hname
    unfold buildAxisEnv at h
    split at h
    · obtain ⟨names', hnc⟩ := buildAxisEnvAux_names_consistent axspec [] [] 0 out
        (by intro n v hv; simp [lookupAssoc] at hv)
        (by intro p v hv; simp [lookupAssoc] at hv) h
      have h₁ := hnc p₁ v₁ hl₁
      have h₂ := hnc p₂ v₂ hl₂
      rw [hname] at h₁
      rw [h₁] at h₂
      cases h₂
      rfl
    · simp at h
  · intro table shapes p₁ p₂ v₁ v₂ k₁ k₂ hm₁ hm₂ hname hr₁ hr₂ hne
    unfold resolveBindings
    cases h : resolveAux shapes table [] with
    | ok b' =>
        exfalso
        obtain ⟨j₁, hj₁, hb₁⟩ := resolveAux_reads shapes table [] b' h p₁ v₁ hm₁
        obtain ⟨j₂, hj₂, hb₂⟩ := resolveAux_reads shapes table [] b' h p₂ v₂ hm₂
        rw [hr₁] at hj₁
        rw [hr₂] at hj₂
        cases hj₁
        cases hj₂
        rw [hname] at hb₁
        rw [hb₁] at hb₂
        cases hb₂
        exact hne rfl
    | error e =>
        rw [resolveAux_error_shape shapes table [] e h]

/-- C6 witness: two rank-1 arguments sharing leading dimension "n": the
environment binds one variable for both, and concrete shapes [4] vs [5]
are rejected before execution. -/
theorem c6_shared_name_single_variable_witness :
    (⟨0, "n"⟩ : DimVar) = ⟨0, "n"⟩ ∧
    resolveBindings [((0, 0), ⟨0, "n"⟩), ((1, 0), ⟨0, "n"⟩)] [[4], [5]] =
      .error .shapeCompatibility :=
  ⟨c6_shared_name_single_variable.1 [1, 1] [((0, 0), "n"), ((1, 0), "n")]
      [((0, 0), ⟨0, "n"⟩), ((1, 0), ⟨0, "n"⟩)] (0, 0) (1, 0) ⟨0, "n"⟩ ⟨0, "n"⟩
      rfl rfl rfl rfl,
   c6_shared_name_single_variable.2 [((0, 0), ⟨0, "n"⟩), ((1, 0), ⟨0, "n"⟩)]
      [[4], [5]] (0, 0) (1, 0) ⟨0, "n"⟩ ⟨0, "n"⟩ 4 5 (by simp) (by simp)
      rfl rfl rfl (by decide)⟩

theorem compile_ok_structure (r : CompileRequest) (c : Compiled)
    (h : compile r = .ok c) :
    ∃ table g outs,
      buildAxisEnv (r.args.map fun a => a.shape.length) r.axspec = .ok table ∧
      traceFunction r.body (buildAbstractValues table r.args) = .ok (g, outs) ∧
      c = { graph := g
            traceInputs := (envVars table).map mkDimScalar ++
              buildAbstractValues table r.args
            traceOutputs := outs
            argTypes := ((envVars table).map mkDimScalar ++
              buildAbstractValues table r.args).map lowerAval
            lowered := { resultTypes := outs.map lowerAval
                         bindingTable := table.map fun p => (p.2.name, p.1) } } := by
  unfold compile at h
  split at h
  · simp at h
  · rename_i table htable
    dsimp only at h
    split at h
    · simp at h
    · rename_i g outs ht
      cases h
      exact ⟨table, g, outs, htable, ht, rfl⟩

theorem lookupAssoc_mem {α β : Type} [DecidableEq α] :
    ∀ {l : List (α × β)} {k : α} {v : β},
      lookupAssoc k l = some v → (k, v) ∈ l := by
  intro l
  induction l with
  | nil => intro k v h; simp [lookupAssoc] at h
  | cons x rest ih =>
      intro k v h
      simp only [lookupAssoc] at h
      split at h
      · rename_i heq
        cases h
        subst heq
        simp
      · exact List.mem_cons_of_mem _ (ih h)

theorem mem_insertVar_of_mem {acc : List DimVar} {v w : DimVar}
    (h : v ∈ acc) : v ∈ insertVar acc w := by
  unfold insertVar
  split
  · exact h
  · exact List.mem_append_left _ h

theorem mem_insertVar_self (acc : List DimVar) (v : DimVar) :
    v ∈ insertVar acc v := by
  unfold insertVar
  split
  · assumption
  · simp

theorem mem_envVars_foldl :
    ∀ (table : List ((Nat × Nat) × DimVar)) (acc : List DimVar) (v : DimVar),
      (v ∈ acc ∨ ∃ p, (p, v) ∈ table) →
      v ∈ table.foldl (fun acc p => insertVar acc p.2) acc := by
  intro table
  induction table with
  | nil =>
      intro acc v h
      rcases h with h | ⟨p, hp⟩
      · exact h
      · simp at hp
  | cons entry rest ih =>
      intro acc v h
      simp only [List.foldl_cons]
      refine ih _ v ?_
      rcases h with h | ⟨p, hp⟩
      · exact Or.inl (mem_insertVar_of_mem h)
      · rcases List.mem_cons.mp hp with hhead | htail
        · left
          have : v = entry.2 := by
            rw [← hhead]
          rw [this]
          exact mem_insertVar_self acc entry.2
        · exact Or.inr ⟨p, htail⟩

theorem mem_envVars_of_lookup {table : List ((Nat × Nat) × DimVar)}
    {p : Nat × Nat} {v : DimVar} (h : lookupAssoc p table = some v) :
    v ∈ envVars table :=
  mem_envVars_foldl table [] v (Or.inr ⟨p, lookupAssoc_mem h⟩)

theorem mem_varsOfShapes_map {f : Nat → ShapeExpr} :
    ∀ {l : List Nat} {v : DimVar},
      v ∈ varsOfShapes (l.map f) → ∃ j ∈ l, v ∈ (f j).vars := by
  intro l
  induction l with
  | nil => intro v h; simp [varsOfShapes] at h
  | cons x rest ih =>
      intro v h
      simp only [List.map_cons, varsOfShapes, List.mem_append] at h
      rcases h with h | h
      · exact ⟨x, by simp, h⟩
      · obtain ⟨j, hj, hv⟩ := ih h
        exact ⟨j, by simp [hj], hv⟩

theorem buildAval_shape_vars (table : List ((Nat × Nat) × DimVar))
    (i : Nat) (a : ArgSpec) {v : DimVar}
    (h : v ∈ varsOfShapes (buildAval table i a).shape) :
    ∃ p, lookupAssoc p table = some v := by
  obtain ⟨j, _, hv⟩ := mem_varsOfShapes_map h
  revert hv
  split
  · rename_i w hw
    intro hv
    simp [ShapeExpr.vars] at hv
    exact ⟨(i, j), hv ▸ hw⟩
  · intro hv
    simp [ShapeExpr.vars] at hv

theorem mem_mapIdxFrom {α β : Type} {f : Nat → α → β} :
    ∀ {l : List α} {s : Nat} {b : β},
      b ∈ mapIdxFrom f s l → ∃ i x, x ∈ l ∧ b = f i x := by
  intro l
  induction l with
  | nil => intro s b h; simp [mapIdxFrom] at h
  | cons x rest ih =>
      intro s b h
      simp only [mapIdxFrom] at h
      rcases List.mem_cons.mp h with h | h
      · exact ⟨s, x, by simp, h⟩
      · obtain ⟨i, y, hy, hb⟩ := ih h
        exact ⟨i, y, by simp [hy], hb⟩

/-- C9 (implicit): for every compiled function with a symbolic argument
axis, the traced parameter list is augmented with one implicit rank-0 i64
input per DimensionVariable — carrying that variable as its traced
value — placed before the tensor arguments, and every variable referenced
by a tensor argument's dimensions has its scalar in that prefix; the
rank-1 request of `test_qjit_dynamic_argument` yields the parameter list
`a:i64[] b:i64[a]`. -/
theorem c9_implicit_scalar_inputs :
    (∀ r c, compile r = .ok c →
      ∃ table,
        buildAxisEnv (r.args.map fun a => a.shape.length) r.axspec = .ok table ∧
        c.traceInputs = (envVars table).map mkDimScalar ++
          buildAbstractValues table r.args ∧
        (∀ v ∈ envVars table,
          mkDimScalar v = ⟨ElemType.i64, [], some (ShapeExpr.var v)⟩) ∧
        (∀ a ∈ buildAbstractValues table r.args, ∀ v,
          v ∈ varsOfShapes a.shape → v ∈ envVars table)) ∧
    (∃ c, compile ⟨[⟨ElemType.i64, [3]⟩], [((0, 0), "n")], .ret [0]⟩ = .ok c ∧
      c.traceInputs = [⟨ElemType.i64, [], some (ShapeExpr.var ⟨0, "n"⟩)⟩,
        ⟨ElemType.i64, [ShapeExpr.var ⟨0, "n"⟩], none⟩]) := by
  constructor
  · intro r c h
    obtain ⟨table, g, outs, htable, ht, hc⟩ := compile_ok_structure r c h
    refine ⟨table, htable, by rw [hc], fun v _ => rfl, ?_⟩
    intro a ha v hv
    obtain ⟨i, x, _, hb⟩ := mem_mapIdxFrom ha
    subst hb
    obtain ⟨p, hp⟩ := buildAval_shape_vars table i x hv
    exact mem_envVars_of_lookup hp
  · exact ⟨_, rfl, rfl⟩

/-- Every computed dynamic dimension of every array output is available
from an earlier output: walking the outputs left to right with the size
expressions made available so far, each array's computed dimensions must
already be available (i.e. a scalar carrying that size precedes the
array). -/
def pairedUpTo : List ShapeExpr → List AbstractValue → Prop
  | _, [] => True
  | avail, o :: rest =>
      (∀ e ∈ o.shape, isComputedDim e = true → e ∈ avail) ∧
      pairedUpTo (avail ++ scalarExprsOf o) rest

mutual

def nodePaired : TraceNode → Prop
  | .op _ _ _ => True
  | .call sub _ results => pairedUpTo [] results ∧ nodesPaired sub

def nodesPaired : List TraceNode → Prop
  | [] => True
  | n :: rest => nodePaired n ∧ nodesPaired rest

end

theorem mem_seen_or_dimsNeedingScalars :
    ∀ (shape seen : List ShapeExpr) (e : ShapeExpr),
      e ∈ shape → isComputedDim e = true →
      e ∈ seen ++ dimsNeedingScalars seen shape := by
  intro shape
  induction shape with
  | nil => intro seen e h; simp at h
  | cons x rest ih =>
      intro seen e hmem hcomp
      simp only [dimsNeedingScalars]
      rcases List.mem_cons.mp hmem with hhead | htail
      · subst hhead
        split
        · rename_i hcond
          simp
        · rename_i hcond
          rw [Decidable.not_and_iff_or_not] at hcond
          rcases hcond with hc | hc
          · exact absurd hcomp hc
          · rw [Decidable.not_not] at hc
            exact List.mem_append_left _ hc
      · split
        · rename_i hcond
          have := ih (seen ++ [x]) e htail hcomp
          rw [List.mem_append] at this
          rcases this with h | h
          · rw [List.mem_append] at h
            rcases h with h | h
            · exact List.mem_append_left _ h
            · simp at h
              subst h
              simp
          · refine List.mem_append_right _ ?_
            simp [h]
        · exact ih seen e htail hcomp

theorem pairedUpTo_scalars :
    ∀ (need : List ShapeExpr) (avail : List ShapeExpr) (l : List AbstractValue),
      pairedUpTo (avail ++ need) l →
      pairedUpTo avail (need.map mkSizeScalar ++ l) := by
  intro need
  induction need with
  | nil => intro avail l h; simpa using h
  | cons e rest ih =>
      intro avail l h
      simp only [List.map_cons, List.cons_append, pairedUpTo]
      constructor
      · intro x hx
        simp [mkSizeScalar] at hx
      · show pairedUpTo (avail ++ scalarExprsOf (mkSizeScalar e))
          (rest.map mkSizeScalar ++ l)
        have hse : scalarExprsOf (mkSizeScalar e) = [e] := rfl
        rw [hse]
        refine ih (avail ++ [e]) l ?_
        rw [List.append_assoc]
        simpa using h

theorem pairedUpTo_augmentGo :
    ∀ (l : List AbstractValue) (seen : List ShapeExpr),
      pairedUpTo seen (augmentGo seen l) := by
  intro l
  induction l with
  | nil => intro seen; simp [augmentGo, pairedUpTo]
  | cons o rest ih =>
      intro seen
      simp only [augmentGo]
      refine pairedUpTo_scalars (dimsNeedingScalars seen o.shape) seen _ ?_
      simp only [pairedUpTo]
      constructor
      · intro e he hcomp
        exact mem_seen_or_dimsNeedingScalars o.shape seen e he hcomp
      · have := ih (seen ++ dimsNeedingScalars seen o.shape ++ scalarExprsOf o)
        simpa [List.append_assoc] using this

theorem pairedUpTo_augmentOutputs (l : List AbstractValue) :
    pairedUpTo [] (augmentOutputs l) :=
  pairedUpTo_augmentGo l []

theorem traceBody_graph_paired :
    ∀ (body : FnBody) (inputs : List AbstractValue)
      (g : List TraceNode) (outs : List AbstractValue),
      traceBody body inputs = .ok (g, outs) → nodesPaired g := by
  intro body
  induction body with
  | ret idxs =>
      intro inputs g outs h
      simp only [traceBody] at h
      split at h
      · cases h
        simp [nodesPaired]
      · simp at h
  | retOnesAddOne i =>
      intro inputs g outs h
      simp only [traceBody] at h
      split at h
      · simp at h
      · split at h
        · cases h
          simp [nodesPaired, nodePaired]
        · simp at h
  | retCall sub idxs ihsub =>
      intro inputs g outs h
      simp only [traceBody] at h
      split at h
      · simp at h
      · rename_i callUser hs
        split at h
        · simp at h
        · rename_i ig iouts₀ ht
          cases h
          refine ⟨⟨pairedUpTo_augmentOutputs iouts₀, ihsub _ _ _ ht⟩, trivial⟩

/-- C10 counterexample: `test_qnode_dynamic_arg`-style pass-through of an
array with a dynamic (input-variable) dimension: the traced program's
outputs are the single array value only — no scalar size output precedes
it — even though the array's dimension is dynamic. -/
theorem c10_counterexample_passthrough :
    ∃ c, compile ⟨[⟨ElemType.i64, [3]⟩], [((0, 0), "n")], .ret [0]⟩ = .ok c ∧
      c.traceOutputs = [⟨ElemType.i64, [ShapeExpr.var ⟨0, "n"⟩], none⟩] ∧
      c.lowered.resultTypes = [⟨ElemType.i64, [DimDescr.dynamic]⟩] :=
  ⟨_, rfl, rfl, rfl⟩

/-- C10 as amended: when a function (or nested sub-program call) returns
an array with a *computed* dynamic dimension (one that is not a bare
input DimensionVariable and not a constant), the traced program also
returns the scalar size value as an explicit output preceding the array,
and this holds at every nested-call boundary; dimensions that are bare
input variables are recoverable from the inputs and are not re-returned. -/
theorem c10_computed_sizes_paired (r : CompileRequest) (c : Compiled)
    (h : compile r = .ok c) :
    pairedUpTo [] c.traceOutputs ∧ nodesPaired c.graph := by
  obtain ⟨table, g, outs, _, ht, hc⟩ := compile_ok_structure r c h
  unfold traceFunction at ht
  split at ht
  · rename_i g₀ outs₀ ht₀
    simp only [Except.ok.injEq, Prod.mk.injEq] at ht
    obtain ⟨hg, ho⟩ := ht
    subst hg
    subst ho
    subst hc
    exact ⟨pairedUpTo_augmentOutputs outs₀, traceBody_graph_paired _ _ _ _ ht₀⟩
  · simp at ht

/-- C10 witness: the computed-size request of `test_qjit_dynamic_result`
(and its qnode variant) satisfies the pairing property. -/
theorem c10_computed_sizes_paired_witness :
    ∃ c, compile ⟨[⟨ElemType.i64, []⟩], [], .retCall (.retOnesAddOne 0) [0]⟩ =
        .ok c ∧
      pairedUpTo [] c.traceOutputs ∧ nodesPaired c.graph :=
  ⟨_, rfl, c10_computed_sizes_paired
    ⟨[⟨ElemType.i64, []⟩], [], .retCall (.retOnesAddOne 0) [0]⟩ _ rfl⟩

theorem dimsNeedingScalars_nil_of_const :
    ∀ (shape : List ShapeExpr), (∀ e ∈ shape, ∃ n, e = ShapeExpr.const n) →
      ∀ seen, dimsNeedingScalars seen shape = [] := by
  intro shape
  induction shape with
  | nil => intro _ seen; rfl
  | cons x rest ih =>
      intro h seen
      obtain ⟨n, hn⟩ := h x (by simp)
      subst hn
      simp only [dimsNeedingScalars]
      split
      · rename_i hcond
        simp [isComputedDim] at hcond
      · exact ih (fun e he => h e (by simp [he])) seen

theorem augmentGo_id_of_const :
    ∀ (l : List AbstractValue) (seen : List ShapeExpr),
      (∀ a ∈ l, ∀ e ∈ a.shape, ∃ n, e = ShapeExpr.const n) →
      augmentGo seen l = l := by
  intro l
  induction l with
  | nil => intro seen _; rfl
  | cons o rest ih =>
      intro seen h
      simp only [augmentGo, dimsNeedingScalars_nil_of_const o.shape
        (h o (by simp)) seen]
      simp only [List.map_nil, List.nil_append, List.append_nil]
      rw [ih _ (fun a ha e he => h a (by simp [ha]) e he)]

theorem traceBody_const_preserved :
    ∀ (body : FnBody) (inputs : List AbstractValue)
      (g : List TraceNode) (outs : List AbstractValue),
      (∀ a ∈ inputs, (∀ e ∈ a.shape, ∃ n, e = ShapeExpr.const n) ∧
        a.scalarVal = none) →
      traceBody body inputs = .ok (g, outs) →
      ∀ a ∈ outs, (∀ e ∈ a.shape, ∃ n, e = ShapeExpr.const n) ∧
        a.scalarVal = none := by
  intro body
  induction body with
  | ret idxs =>
      intro inputs g outs hin h
      simp only [traceBody] at h
      split at h
      · rename_i l hs
        cases h
        exact fun a ha => hin a (selectArgs_mem inputs idxs _ hs a ha)
      · simp at h
  | retOnesAddOne i =>
      intro inputs g outs hin h
      simp only [traceBody] at h
      split at h
      · simp at h
      · rename_i av hg
        split at h
        · rename_i e hshape hval
          have := (hin av (List.getElem?_mem hg)).2
          rw [hval] at this
          simp at this
        · simp at h
  | retCall sub idxs ihsub =>
      intro inputs g outs hin h
      simp only [traceBody] at h
      split at h
      · simp at h
      · rename_i callUser hs
        split at h
        · simp at h
        · rename_i ig iouts₀ ht
          cases h
          have hcall : ∀ a ∈ callUser, (∀ e ∈ a.shape, ∃ n, e = ShapeExpr.const n) ∧
              a.scalarVal = none :=
            fun a ha => hin a (selectArgs_mem inputs idxs _ hs a ha)
          have hiout := ihsub callUser ig iouts₀ hcall ht
          rw [show augmentOutputs iouts₀ = iouts₀ from
            augmentGo_id_of_const iouts₀ [] (fun a ha => (hiout a ha).1)]
          exact hiout

theorem range_map_getD_const :
    ∀ (l : List Nat), (List.range l.length).map
        (fun j => ShapeExpr.const (l.getD j 0)) = l.map ShapeExpr.const := by
  intro l
  induction l with
  | nil => simp
  | cons x xs ih =>
      simp only [List.length_cons, List.range_succ_eq_map, List.map_cons,
        List.map_map, List.getD_cons_zero]
      refine congrArg _ ?_
      calc (List.range xs.length).map
            ((fun j => ShapeExpr.const ((x :: xs).getD j 0)) ∘ Nat.succ)
          = (List.range xs.length).map (fun j => ShapeExpr.const (xs.getD j 0)) := by
            refine List.map_congr_left ?_
            intro j _
            rfl
        _ = xs.map ShapeExpr.const := ih

theorem buildAval_nil_table (i : Nat) (a : ArgSpec)
    (h : ¬(a.shape = [] ∧ a.elemType = ElemType.i64)) :
    buildAval [] i a = staticAval a := by
  unfold buildAval staticAval
  refine congrArg₂ _ ?_ (if_neg h)
  have : ∀ j, (match lookupAssoc (i, j) ([] : List ((Nat × Nat) × DimVar)) with
      | some v => ShapeExpr.var v
      | none => ShapeExpr.const (a.shape.getD j 0)) =
      ShapeExpr.const (a.shape.getD j 0) := fun j => rfl
  calc (List.range a.shape.length).map _
      = (List.range a.shape.length).map (fun j => ShapeExpr.const (a.shape.getD j 0)) := by
        refine List.map_congr_left ?_
        intro j _
        exact this j
    _ = a.shape.map ShapeExpr.const := range_map_getD_const a.shape

theorem buildAbstractValues_nil_table :
    ∀ (args : List ArgSpec) (s : Nat),
      (∀ a ∈ args, ¬(a.shape = [] ∧ a.elemType = ElemType.i64)) →
      mapIdxFrom (buildAval []) s args = args.map staticAval := by
  intro args
  induction args with
  | nil => intro s _; rfl
  | cons a rest ih =>
      intro s h
      simp only [mapIdxFrom, List.map_cons]
      rw [buildAval_nil_table s a (h a (by simp)),
        ih (s + 1) (fun x hx => h x (by simp [hx]))]

theorem staticAval_const (a : ArgSpec) :
    (∀ e ∈ (staticAval a).shape, ∃ n, e = ShapeExpr.const n) ∧
      (staticAval a).scalarVal = none := by
  refine ⟨?_, rfl⟩
  intro e he
  simp only [staticAval] at he
  obtain ⟨n, _, hn⟩ := List.mem_map.mp he
  exact ⟨n, hn.symm⟩

theorem lowerAval_no_dynamic {a : AbstractValue}
    (h : ∀ e ∈ a.shape, ∃ n, e = ShapeExpr.const n) :
    ∀ d ∈ (lowerAval a).dims, d ≠ DimDescr.dynamic := by
  intro d hd
  simp only [lowerAval] at hd
  obtain ⟨e, he, hde⟩ := List.mem_map.mp hd
  obtain ⟨n, hn⟩ := h e he
  subst hn
  rw [← hde]
  simp [lowerDim, evalShapeExpr]

/-- C5 counterexample: `test_qjit_dynamic_result` compiles with *no*
declared symbolic axes, yet its LoweredSignature carries a dynamic marker
(`f64[a+1]`), and a fully-static compilation of the same function is not
even possible (the shape-computing op is rejected without the traced
scalar) — refuting "zero dynamic markers and equivalence to static
compilation for every function with no declared symbolic axes". -/
theorem c5_counterexample_scalar_driven_dynamic :
    (∃ c, compile ⟨[⟨ElemType.i64, []⟩], [], .retOnesAddOne 0⟩ = .ok c ∧
      c.lowered.resultTypes =
        [⟨ElemType.i64, []⟩, ⟨ElemType.f64, [DimDescr.dynamic]⟩]) ∧
    compileStatic [⟨ElemType.i64, []⟩] (.retOnesAddOne 0) =
      .error .unsupportedDynamicShapeOperation :=
  ⟨⟨_, rfl, rfl⟩, rfl⟩

/-- C5 as amended: for every function compiled with no declared symbolic
axes *and no rank-0 integer argument* (a traced integer scalar can still
drive a dynamic result size, as `test_qjit_dynamic_result` shows), the
compiled artifact is identical to the fully-static compilation of the
same function, and on success its LoweredSignature and argument types
contain zero dynamic markers and an empty binding table. -/
theorem c5_static_refinement (r : CompileRequest)
    (hax : r.axspec = [])
    (hargs : ∀ a ∈ r.args, ¬(a.shape = [] ∧ a.elemType = ElemType.i64)) :
    compile r = compileStatic r.args r.body ∧
    (∀ c, compile r = .ok c →
      (∀ t ∈ c.argTypes, ∀ d ∈ t.dims, d ≠ DimDescr.dynamic) ∧
      (∀ t ∈ c.lowered.resultTypes, ∀ d ∈ t.dims, d ≠ DimDescr.dynamic) ∧
      c.lowered.bindingTable = []) := by
  have henv : buildAxisEnv (r.args.map fun a => a.shape.length) [] = .ok [] := rfl
  have huser : buildAbstractValues ([] : List ((Nat × Nat) × DimVar)) r.args =
      r.args.map staticAval :=
    buildAbstractValues_nil_table r.args 0 hargs
  have hstatic : ∀ a ∈ r.args.map staticAval,
      (∀ e ∈ a.shape, ∃ n, e = ShapeExpr.const n) ∧ a.scalarVal = none := by
    intro a ha
    obtain ⟨x, _, hx⟩ := List.mem_map.mp ha
    exact hx ▸ staticAval_const x
  have hmain : compile r = compileStatic r.args r.body := by
    unfold compile compileStatic
    rw [hax, henv]
    simp only [huser]
    cases ht : traceBody r.body (r.args.map staticAval) with
    | error e => simp [traceFunction, ht]
    | ok go =>
        obtain ⟨g, outs₀⟩ := go
        have houts := traceBody_const_preserved r.body _ g outs₀ hstatic ht
        have haug : augmentOutputs outs₀ = outs₀ :=
          augmentGo_id_of_const outs₀ [] (fun a ha => (houts a ha).1)
        simp [traceFunction, ht, haug, envVars]
  refine ⟨hmain, ?_⟩
  intro c hc
  rw [hmain] at hc
  unfold compileStatic at hc
  dsimp only at hc
  split at hc
  · simp at hc
  · rename_i g outs₀ ht
    have houts := traceBody_const_preserved r.body _ g outs₀ hstatic ht
    cases hc
    refine ⟨?_, ?_, rfl⟩
    · intro t htmem d hd
      obtain ⟨a, ha, hta⟩ := List.mem_map.mp htmem
      exact lowerAval_no_dynamic (hstatic a ha).1 d (hta ▸ hd)
    · intro t htmem d hd
      obtain ⟨a, ha, hta⟩ := List.mem_map.mp htmem
      exact lowerAval_no_dynamic (houts a ha).1 d (hta ▸ hd)

/-- C5 witness: a rank-2 f64 argument with no axis specification. -/
theorem c5_static_refinement_witness :
    compile ⟨[⟨ElemType.f64, [2, 2]⟩], [], .ret [0]⟩ =
      compileStatic [⟨ElemType.f64, [2, 2]⟩] (.ret [0]) ∧
    (∀ c, compile ⟨[⟨ElemType.f64, [2, 2]⟩], [], .ret [0]⟩ = .ok c →
      (∀ t ∈ c.argTypes, ∀ d ∈ t.dims, d ≠ DimDescr.dynamic) ∧
      (∀ t ∈ c.lowered.resultTypes, ∀ d ∈ t.dims, d ≠ DimDescr.dynamic) ∧
      c.lowered.bindingTable = []) :=
  c5_static_refinement ⟨[⟨ElemType.f64, [2, 2]⟩], [], .ret [0]⟩ rfl
    (by intro a ha; simp at ha; subst ha; simp)

end Catalyst
